import Mathlib

/-!
Verification of the comment-block matcher and block model of
`cpp_comment_format` (file `cpp_comment_format/__init__.py`).

Text is embedded as `List Char`.  Python's `re` is only used by the code
with two concrete kinds of patterns: literal delimiters (optionally behind
the negative lookbehind `(?<!\\)` added by `ignore_escaped`) and the
default docstring opener `/\*\*\s*\n`.  Both are modelled by explicit
left-to-right scanners that mirror `re.finditer`'s non-overlapping scan:
at each position, if the (lookbehind + pattern) matches, the start offset
is recorded and the scan resumes at the end of the match, otherwise the
scan advances by one character.

Fallible Python operations (list indexing, dict lookup, the explicit
`raise IndexError` of `find_matching`) are modelled with `Except PyErr`.
-/

/-- The Python errors raised by the modelled code.  `noOpening j` is the
`IndexError(f"No opening ... at {j}")` raised by `find_matching`;
`indexError` is a list-index-out-of-range; `keyError` a dict lookup miss.
`fuelOut` marks iteration budgets that are never reached on the runs the
theorems below talk about. -/
inductive PyErr where
  | indexError : PyErr
  | keyError : PyErr
  | noOpening : Nat → PyErr
  | fuelOut : PyErr
deriving DecidableEq

instance {e a : Type} [DecidableEq e] [DecidableEq a] : DecidableEq (Except e a) := fun x y =>
  match x, y with
  | .error u, .error v =>
    if h : u = v then .isTrue (by rw [h]) else .isFalse (fun hc => h (Except.error.inj hc))
  | .ok u, .ok v =>
    if h : u = v then .isTrue (by rw [h]) else .isFalse (fun hc => h (Except.ok.inj hc))
  | .error _, .ok _ => .isFalse (fun hc => Except.noConfusion hc)
  | .ok _, .error _ => .isFalse (fun hc => Except.noConfusion hc)

/-- Assignment `m[k] = v` on a Python dict kept as an association list in
insertion order: an existing key is overwritten in place, a new key is
appended at the end. -/
def dictInsert {β : Type} (k : Nat) (v : β) : List (Nat × β) → List (Nat × β)
  | [] => [(k, v)]
  | (k', v') :: rest => if k' = k then (k, v) :: rest else (k', v') :: dictInsert k v rest

/-- Python dict lookup `m[k]` (as an `Option`). -/
def dictGet {β : Type} : List (Nat × β) → Nat → Option β
  | [], _ => none
  | (k', v') :: rest, k => if k' = k then some v' else dictGet rest k

/-- Lookup with an `Int` key in a dict whose keys are naturals (negative
keys are never present, hence `none`). -/
def dictGetI {β : Type} (m : List (Nat × β)) (i : Int) : Option β :=
  if i < 0 then none else dictGet m i.toNat

/-- Python list indexing `l[i]`: negative indices wrap once from the end;
anything still out of range raises `IndexError`. -/
def pyGet (l : List Nat) (i : Int) : Except PyErr Nat :=
  let j : Int := if i < 0 then i + l.length else i
  if j < 0 then .error .indexError
  else
    match l.get? j.toNat with
    | some v => .ok v
    | none => .error .indexError

/-- Python slicing `t[i:j]` for nonnegative bounds. -/
def pySlice (t : List Char) (i j : Nat) : List Char := (t.take j).drop i

/-- Python `"\n".join(blocks)`. -/
def joinNl : List (List Char) → List Char
  | [] => []
  | [x] => x
  | x :: y :: rest => x ++ '\n' :: joinNl (y :: rest)

/-- Python's `\s` on the ASCII range: space, tab, newline, carriage
return, vertical tab, form feed. -/
def pySpace (c : Char) : Bool :=
  c = ' ' || c = '\t' || c = '\n' || c = '\r' || c = '\x0b' || c = '\x0c'

/-- The negative lookbehind `(?<!\\)` evaluated at position `p`: true when
there is a character at `p - 1` and it is a backslash.  A match at offset
0 is never escaped. -/
def escapedAt (text : List Char) (p : Nat) : Bool :=
  if p = 0 then false else text.get? (p - 1) == some '\\'

/-- Non-overlapping left-to-right scan of `re.finditer` for a literal
pattern `pat`, with the `ignore_escaped` lookbehind when `esc` is true.
Returns the match start offsets.  The fuel is one more than the number of
remaining positions, so it never runs out when started as in `litStarts`. -/
def scanLit (esc : Bool) (pat text : List Char) : Nat → Nat → List Nat
  | 0, _ => []
  | fuel + 1, p =>
    if p < text.length then
      if esc && escapedAt text p then scanLit esc pat text fuel (p + 1)
      else if !pat.isEmpty && pat.isPrefixOf (text.drop p) then
        p :: scanLit esc pat text fuel (p + pat.length)
      else scanLit esc pat text fuel (p + 1)
    else []

/-- All match start offsets of a literal pattern, as `re.finditer` yields
them (ascending). -/
def litStarts (esc : Bool) (pat text : List Char) : List Nat :=
  scanLit esc pat text (text.length + 1) 0

/-- Length of the maximal run of `\s` characters at the head of `l`. -/
def wsRunLen : List Char → Nat
  | [] => 0
  | c :: rest => if pySpace c then wsRunLen rest + 1 else 0

/-- Index of the last `'\n'` among the first `n` characters of `l`. -/
def lastNlIdx : List Char → Nat → Option Nat
  | _, 0 => none
  | [], _ + 1 => none
  | c :: rest, n + 1 =>
    match lastNlIdx rest n with
    | some i => some (i + 1)
    | none => if c = '\n' then some 0 else none

/-- One match attempt of the default opening pattern `/\*\*\s*\n` at
position `p`: the three characters `/**`, then the greedy `\s*\n`, whose
match (when the whitespace run after `/**` contains a newline) extends to
one past the last newline of that run.  Returns the match end. -/
def matchDocOpen (text : List Char) (p : Nat) : Option Nat :=
  if ['/', '*', '*'].isPrefixOf (text.drop p) then
    match lastNlIdx (text.drop (p + 3)) (wsRunLen (text.drop (p + 3))) with
    | some i => some (p + 3 + i + 1)
    | none => none
  else none

/-- `re.finditer` scan for `(?<!\\)/\*\*\s*\n` (the `Docstrings` default
opening pattern with `ignore_escaped=True`). -/
def scanDocOpen (text : List Char) : Nat → Nat → List Nat
  | 0, _ => []
  | fuel + 1, p =>
    if p < text.length then
      if escapedAt text p then scanDocOpen text fuel (p + 1)
      else
        match matchDocOpen text p with
        | some e => p :: scanDocOpen text fuel e
        | none => scanDocOpen text fuel (p + 1)
    else []

/-- Start offsets of the docstring opening delimiter occurrences. -/
def docOpenStarts (text : List Char) : List Nat :=
  scanDocOpen text (text.length + 1) 0

/-- Start offsets of the closing delimiter `(?<!\\)\*/` occurrences. -/
def docCloseStarts (text : List Char) : List Nat :=
  litStarts true ['*', '/'] text

/-- The sort key of `sorted(a + b, key=lambda i: abs(i))`. -/
def absLe (x y : Int) : Prop := x.natAbs ≤ y.natAbs

instance : DecidableRel absLe := fun x y => Nat.decLe x.natAbs y.natAbs

instance : IsTotal Int absLe := ⟨fun x y => Nat.le_total x.natAbs y.natAbs⟩

instance : IsTrans Int absLe := ⟨fun _ _ _ h1 h2 => Nat.le_trans h1 h2⟩

/-- `sorted(a + [-x for x in b], key=abs)`: opening offsets kept positive,
closing offsets negated, stable sort by absolute value (Python's `sorted`
is stable; `List.insertionSort` is the same stable sort). -/
def sortEvents (a b : List Nat) : List Int :=
  List.insertionSort absLe (a.map (fun n : Nat => (n : Int)) ++ b.map (fun n : Nat => -(n : Int)))

/-- The pairing scan of `find_matching`: walk the sorted events, pushing
nonnegative events on the stack and, on a negative event, either silently
dropping it (empty stack) or popping the most recent opening offset and
recording the pair.  Returns the leftover stack and the result dict. -/
def pairingScan : List Int → List Nat → List (Nat × Nat) → List Nat × List (Nat × Nat)
  | [], stack, ret => (stack, ret)
  | e :: rest, stack, ret =>
    if 0 ≤ e then pairingScan rest (e.toNat :: stack) ret
    else
      match stack with
      | [] => pairingScan rest [] ret
      | j :: s => pairingScan rest s (dictInsert j (-e).toNat ret)

/-- `find_matching`, abstracted over the two occurrence-offset lists that
the regex scans produce (`a` = opening starts, `b` = closing starts).
Mirrors the early return on two empty lists, the sort with negation
encoding, the stack scan, and the final `IndexError` on a nonempty stack
reporting `stack.pop()` (the most recently pushed unmatched offset). -/
def find_matching (a b : List Nat) : Except PyErr (List (Nat × Nat)) :=
  if a.isEmpty && b.isEmpty then .ok []
  else
    match pairingScan (sortEvents a b) [] [] with
    | ([], ret) => .ok ret
    | (j :: _, _) => .error (.noOpening j)

/-- `find_matching(text, opening, closing, escape_input=True,
ignore_escaped=ignoreEsc)` for literal delimiter strings. -/
def findMatchingLit (opening closing : List Char) (ignoreEsc : Bool) (text : List Char) :
    Except PyErr (List (Nat × Nat)) :=
  find_matching (litStarts ignoreEsc opening text) (litStarts ignoreEsc closing text)

/-- `find_matching` as `_comment_blocks` calls it from `Docstrings`'s
defaults: opening `/\*\*\s*\n`, closing `\*/`, `escape_input=False`,
`ignore_escaped=True`. -/
def findMatchingDoc (text : List Char) : Except PyErr (List (Nat × Nat)) :=
  find_matching (docOpenStarts text) (docCloseStarts text)

/-- Offsets of the `'\n'` characters of the text, ascending. -/
def nlPositionsAux : List Char → Nat → List Nat
  | [], _ => []
  | c :: rest, i =>
    if c = '\n' then i :: nlPositionsAux rest (i + 1) else nlPositionsAux rest (i + 1)

/-- `[i for i, c in enumerate(text) if c == "\n"]`. -/
def nlPositions (text : List Char) : List Nat := nlPositionsAux text 0

/-- The loop `while target > newline[inewline]: inewline += 1` starting at
`i`; running past the end of the list is Python's `IndexError`.  The fuel
never runs out when called with `newline.length + 1`. -/
def skipNl (newline : List Nat) (target : Nat) : Nat → Nat → Except PyErr Nat
  | 0, _ => .error .indexError
  | fuel + 1, i =>
    match newline.get? i with
    | none => .error .indexError
    | some v => if v < target then skipNl newline target fuel (i + 1) else .ok i

/-- `sorted(list(brackets.keys()))`. -/
def sortedKeys (m : List (Nat × Nat)) : List Nat :=
  List.insertionSort (fun x y => x ≤ y) (m.map Prod.fst)

/-- The per-opener loop of `_comment_blocks`: find the line of the opening
offset, then the line after the line of its matched closing offset, and
record `ret[start_line] = end_line`. -/
def cbLoop (newline : List Nat) (m : List (Nat × Nat)) :
    List Nat → Nat → List (Nat × Nat) → Except PyErr (List (Nat × Nat))
  | [], _, ret => .ok ret
  | oc :: rest, inewline, ret =>
    match skipNl newline oc (newline.length + 1) inewline with
    | .error e => .error e
    | .ok i1 =>
      match dictGet m oc with
      | none => .error .keyError
      | some cl =>
        match skipNl newline cl (newline.length + 1) i1 with
        | .error e => .error e
        | .ok i2 => cbLoop newline m rest (i2 + 1) (dictInsert i1 (i2 + 1) ret)

/-- `_comment_blocks(text, opening, closing, escape_input)` at the
`Docstrings` defaults: `{line_start: line_end}` for each matched block. -/
def comment_blocks (text : List Char) : Except PyErr (List (Nat × Nat)) :=
  match findMatchingDoc text with
  | .error e => .error e
  | .ok m => cbLoop (nlPositions text) m (sortedKeys m) 0 []

/-- Python `min` over the keys of a dict. -/
def minKeys {β : Type} : List (Nat × β) → Option Nat
  | [] => none
  | (k, _) :: rest =>
    match minKeys rest with
    | none => some k
    | some k' => some (Nat.min k k')

/-- The `code_blocks` construction of `Docstrings.__init__`: for each
`(start_line, end_line)` of `doc_blocks` in order, `code_blocks[last] =
start_line - 1; last = end_line`.  Returns the dict and the final `last`
(the trailing `code_blocks[last] = -1` is added by the caller). -/
def buildCodeBlocks : List (Nat × Nat) → Nat → List (Nat × Int) → List (Nat × Int) × Nat
  | [], last, cb => (cb, last)
  | (s, e) :: rest, last, cb => buildCodeBlocks rest e (dictInsert last ((s : Int) - 1) cb)

/-- The block model: `blocks` are the segments, `comment` tags block
segments, `index` maps the iteration index of a block to its position in
`blocks` (lines 311-316 of the source). -/
structure Docstrings where
  blocks : List (List Char)
  comment : List Bool
  index : List (Nat × Nat)
deriving DecidableEq

/-- `index = {}; i = 0; for j ...: if comment[j]: index[i] = j; i += 1`. -/
def buildIndexAux : List Bool → Nat → Nat → List (Nat × Nat)
  | [], _, _ => []
  | b :: rest, i, j =>
    if b then (i, j) :: buildIndexAux rest (i + 1) (j + 1)
    else buildIndexAux rest i (j + 1)

/-- The block-index map built from the comment tags. -/
def buildIndex (comment : List Bool) : List (Nat × Nat) := buildIndexAux comment 0 0

/-- The `while True` loop of `Docstrings.__init__` (lines 290-309):
alternately append the next doc segment and the following plain segment,
stopping at the `-1` sentinel.  The fuel (one more than the number of doc
blocks) covers every terminating run of the Python loop. -/
def initLoop (text : List Char) (newline : List Nat) (docB : List (Nat × Nat))
    (codeB : List (Nat × Int)) :
    Nat → Int → List (List Char) → List Bool → Except PyErr (List (List Char) × List Bool)
  | 0, _, _, _ => .error .fuelOut
  | fuel + 1, ecode, blocks, comment =>
    match dictGetI docB (ecode + 1) with
    | none => .error .keyError
    | some edoc =>
      match dictGetI codeB (edoc : Int) with
      | none => .error .keyError
      | some ecode2 =>
        match
          (if ecode + 1 = 0 then
            match pyGet newline ((edoc : Int) - 1) with
            | .ok v => Except.ok (text.take v)
            | .error e => Except.error e
          else
            match pyGet newline ecode, pyGet newline ((edoc : Int) - 1) with
            | .ok v1, .ok v2 => Except.ok (pySlice text (v1 + 1) v2)
            | .error e, _ => Except.error e
            | .ok _, .error e => Except.error e)
        with
        | .error e => .error e
        | .ok seg =>
          if ecode2 = -1 then
            match pyGet newline ((edoc : Int) - 1) with
            | .ok v => .ok (blocks ++ [seg, text.drop (v + 1)], comment ++ [true, false])
            | .error e => .error e
          else
            match pyGet newline ((edoc : Int) - 1), pyGet newline ecode2 with
            | .ok v1, .ok v2 =>
              initLoop text newline docB codeB fuel ecode2
                (blocks ++ [seg, pySlice text (v1 + 1) v2]) (comment ++ [true, false])
            | .error e, _ => .error e
            | .ok _, .error e => .error e

/-- `Docstrings.__init__(text)` with the default patterns.  A text with no
comment blocks collapses to a single plain segment; otherwise the plain
prelude segment is computed and the main loop appends alternating
doc/plain segments. -/
def docstringsInit (text : List Char) : Except PyErr Docstrings :=
  match comment_blocks text with
  | .error e => .error e
  | .ok doc_blocks =>
    if doc_blocks.isEmpty then .ok ⟨[text], [false], []⟩
    else
      match buildCodeBlocks doc_blocks 0 [] with
      | (cb0, last) =>
        let codeB := dictInsert last (-1 : Int) cb0
        let newline := nlPositions text
        match minKeys codeB, minKeys doc_blocks with
        | some scode, some minDoc =>
          match dictGet codeB scode with
          | none => .error .keyError
          | some ecode =>
            match
              (if minDoc = 0 then Except.ok (([] : List (List Char)), ([] : List Bool))
               else if scode = 0 then
                 match pyGet newline ecode with
                 | .ok v => Except.ok ([text.take v], [false])
                 | .error e => Except.error e
               else
                 match pyGet newline ((scode : Int) - 1), pyGet newline ecode with
                 | .ok v1, .ok v2 => Except.ok ([pySlice text (v1 + 1) v2], [false])
                 | .error e, _ => Except.error e
                 | .ok _, .error e => Except.error e)
            with
            | .error e => .error e
            | .ok (blocks0, comment0) =>
              match initLoop text newline doc_blocks codeB (doc_blocks.length + 1) ecode blocks0 comment0 with
              | .error e => .error e
              | .ok (blocks, comment) => .ok ⟨blocks, comment, buildIndex comment⟩
        | _, _ => .error .keyError

/-- `Docstrings.__str__`: `"\n".join(self.blocks)`. -/
def Docstrings.str (d : Docstrings) : List Char := joinNl d.blocks

/-- `Docstrings.__setitem__(i, value)`: `self.blocks[self.index[i]] = value`. -/
def Docstrings.setItem (d : Docstrings) (i : Nat) (v : List Char) : Except PyErr Docstrings :=
  match dictGet d.index i with
  | none => .error .keyError
  | some j =>
    if j < d.blocks.length then .ok ⟨d.blocks.set j v, d.comment, d.index⟩
    else .error .indexError

/-! ## Helper lemmas -/

theorem get?_drop_add {α : Type} : ∀ (l : List α) (i j : Nat), (l.drop i).get? j = l.get? (i + j)
  | _, 0, _ => by simp
  | [], _ + 1, _ => by simp
  | _ :: rest, i + 1, j => by
    rw [List.drop_succ_cons, get?_drop_add rest i j]
    simp [Nat.succ_add]

theorem dictInsert_mem {β : Type} {k : Nat} {v : β} :
    ∀ {m : List (Nat × β)} {p : Nat × β}, p ∈ dictInsert k v m → p = (k, v) ∨ p ∈ m := by
  intro m
  induction m with
  | nil => intro p hp; simp [dictInsert] at hp; exact Or.inl hp
  | cons q rest ih =>
    intro p hp
    by_cases hk : q.1 = k
    · simp [dictInsert, hk] at hp
      rcases hp with h | h
      · exact Or.inl h
      · exact Or.inr (List.mem_cons_of_mem _ h)
    · simp only [dictInsert, hk, if_false] at hp
      rcases List.mem_cons.mp hp with h | h
      · exact Or.inr (h ▸ List.mem_cons_self _ _)
      · rcases ih h with h' | h'
        · exact Or.inl h'
        · exact Or.inr (List.mem_cons_of_mem _ h')

theorem dictInsert_of_not_mem {β : Type} {k : Nat} {v : β} :
    ∀ {m : List (Nat × β)}, k ∉ m.map Prod.fst → dictInsert k v m = m ++ [(k, v)] := by
  intro m
  induction m with
  | nil => intro _; rfl
  | cons q rest ih =>
    intro hk
    simp only [List.map_cons, List.mem_cons] at hk
    push_neg at hk
    simp only [dictInsert]
    rw [if_neg (fun h => hk.1 h.symm)]
    rw [ih hk.2]
    simp

theorem dictGet_mem_keys {β : Type} :
    ∀ {m : List (Nat × β)} {k : Nat} {v : β}, dictGet m k = some v → k ∈ m.map Prod.fst := by
  intro m
  induction m with
  | nil => intro k v h; simp [dictGet] at h
  | cons q rest ih =>
    intro k v h
    by_cases hk : q.1 = k
    · simp [hk]
    · simp only [dictGet, hk, if_false] at h
      simp [ih h]

theorem keys_dictGet {β : Type} :
    ∀ {m : List (Nat × β)} {k : Nat}, k ∈ m.map Prod.fst → ∃ v, dictGet m k = some v := by
  intro m
  induction m with
  | nil => intro k h; simp at h
  | cons q rest ih =>
    intro k h
    by_cases hk : q.1 = k
    · exact ⟨q.2, by simp [dictGet, hk]⟩
    · simp only [List.map_cons, List.mem_cons] at h
      rcases h with h | h
      · exact absurd h.symm hk
      · obtain ⟨v, hv⟩ := ih h
        exact ⟨v, by simp [dictGet, hk, hv]⟩

/-! ## Occurrence-scanner lemmas -/

theorem scanLit_not_escaped (pat text : List Char) :
    ∀ (fuel q p : Nat), p ∈ scanLit true pat text fuel q → escapedAt text p = false := by
  intro fuel
  induction fuel with
  | zero => intro q p h; simp [scanLit] at h
  | succ n ih =>
    intro q p h
    simp only [scanLit] at h
    by_cases h1 : q < text.length
    · rw [if_pos h1] at h
      by_cases h2 : escapedAt text q = true
      · rw [if_pos (by simp [h2])] at h
        exact ih _ _ h
      · rw [if_neg (by simp [h2])] at h
        by_cases h3 : (!pat.isEmpty && pat.isPrefixOf (text.drop q)) = true
        · rw [if_pos h3] at h
          rcases List.mem_cons.mp h with h' | h'
          · subst h'; simpa using h2
          · exact ih _ _ h'
        · rw [if_neg h3] at h
          exact ih _ _ h
    · rw [if_neg h1] at h
      simp at h

theorem scanLit_head (pat text : List Char) (hp : pat ≠ []) (hpre : pat.isPrefixOf text = true) :
    0 ∈ litStarts true pat text := by
  have hlen : 0 < text.length := by
    cases text with
    | nil =>
      cases pat with
      | nil => exact absurd rfl hp
      | cons c cs => simp [List.isPrefixOf] at hpre
    | cons c cs => simp
  show 0 ∈ scanLit true pat text (text.length + 1) 0
  simp only [scanLit]
  rw [if_pos hlen]
  have hesc : escapedAt text 0 = false := by simp [escapedAt]
  rw [if_neg (by simp [hesc])]
  rw [if_pos (by simp [hpre, List.isEmpty_iff, hp])]
  exact List.mem_cons_self _ _

theorem scanDocOpen_mem (text : List Char) :
    ∀ (fuel q p : Nat), p ∈ scanDocOpen text fuel q → ∃ e, matchDocOpen text p = some e := by
  intro fuel
  induction fuel with
  | zero => intro q p h; simp [scanDocOpen] at h
  | succ n ih =>
    intro q p h
    simp only [scanDocOpen] at h
    by_cases h1 : q < text.length
    · rw [if_pos h1] at h
      by_cases h2 : escapedAt text q = true
      · rw [if_pos h2] at h
        exact ih _ _ h
      · rw [if_neg h2] at h
        cases hm : matchDocOpen text q with
        | none => rw [hm] at h; exact ih _ _ h
        | some e =>
          rw [hm] at h
          rcases List.mem_cons.mp h with h' | h'
          · exact ⟨e, h' ▸ hm⟩
          · exact ih _ _ h'
    · rw [if_neg h1] at h
      simp at h

theorem lastNlIdx_spec :
    ∀ (l : List Char) (n i : Nat), lastNlIdx l n = some i → i < n ∧ l.get? i = some '\n' := by
  intro l
  induction l with
  | nil =>
    intro n i h
    cases n with
    | zero => simp [lastNlIdx] at h
    | succ m => simp [lastNlIdx] at h
  | cons c rest ih =>
    intro n i h
    cases n with
    | zero => simp [lastNlIdx] at h
    | succ m =>
      simp only [lastNlIdx] at h
      cases hrec : lastNlIdx rest m with
      | some i' =>
        rw [hrec] at h
        obtain ⟨h1, h2⟩ := ih m i' hrec
        have : i = i' + 1 := by
          simpa using h.symm
        subst this
        exact ⟨by omega, by simpa using h2⟩
      | none =>
        rw [hrec] at h
        by_cases hc : c = '\n'
        · rw [if_pos hc] at h
          have : i = 0 := by simpa using h.symm
          subst this
          exact ⟨by omega, by simp [hc]⟩
        · rw [if_neg hc] at h
          simp at h

theorem wsRunLen_spec :
    ∀ (l : List Char) (r : Nat), r < wsRunLen l → ∃ ch, l.get? r = some ch ∧ pySpace ch = true := by
  intro l
  induction l with
  | nil => intro r h; simp [wsRunLen] at h
  | cons c rest ih =>
    intro r h
    simp only [wsRunLen] at h
    by_cases hc : pySpace c = true
    · rw [if_pos hc] at h
      cases r with
      | zero => exact ⟨c, rfl, hc⟩
      | succ r' =>
        obtain ⟨ch, h1, h2⟩ := ih r' (by omega)
        exact ⟨ch, by simpa using h1, h2⟩
    · rw [if_neg hc] at h
      omega

/-! ## Pairing-scan lemmas -/

theorem pairingScan_origin :
    ∀ (L : List Int) (stack : List Nat) (ret : List (Nat × Nat)) (s' : List Nat)
      (r' : List (Nat × Nat)),
      pairingScan L stack ret = (s', r') →
      ∀ p ∈ r', p ∈ ret ∨
        ((p.1 ∈ stack ∨ ∃ e, e ∈ L ∧ 0 ≤ e ∧ p.1 = e.toNat) ∧
          (∃ e, e ∈ L ∧ e < 0 ∧ p.2 = (-e).toNat)) := by
  intro L
  induction L with
  | nil =>
    intro stack ret s' r' h p hp
    simp only [pairingScan] at h
    obtain ⟨h1, h2⟩ := Prod.mk.injEq .. ▸ h
    exact Or.inl (h2 ▸ hp)
  | cons e rest ih =>
    intro stack ret s' r' h p hp
    simp only [pairingScan] at h
    by_cases he : 0 ≤ e
    · rw [if_pos he] at h
      rcases ih _ _ _ _ h p hp with h' | ⟨h1, h2⟩
      · exact Or.inl h'
      · refine Or.inr ⟨?_, ?_⟩
        · rcases h1 with h1 | ⟨e', he', h0, hp1⟩
          · rcases List.mem_cons.mp h1 with h1 | h1
            · exact Or.inr ⟨e, List.mem_cons_self _ _, he, h1⟩
            · exact Or.inl h1
          · exact Or.inr ⟨e', List.mem_cons_of_mem _ he', h0, hp1⟩
        · obtain ⟨e', he', h0, hp2⟩ := h2
          exact ⟨e', List.mem_cons_of_mem _ he', h0, hp2⟩
    · rw [if_neg he] at h
      cases stack with
      | nil =>
        rcases ih _ _ _ _ h p hp with h' | ⟨h1, h2⟩
        · exact Or.inl h'
        · refine Or.inr ⟨?_, ?_⟩
          · rcases h1 with h1 | ⟨e', he', h0, hp1⟩
            · exact absurd h1 (List.not_mem_nil _)
            · exact Or.inr ⟨e', List.mem_cons_of_mem _ he', h0, hp1⟩
          · obtain ⟨e', he', h0, hp2⟩ := h2
            exact ⟨e', List.mem_cons_of_mem _ he', h0, hp2⟩
      | cons j s =>
        rcases ih _ _ _ _ h p hp with h' | ⟨h1, h2⟩
        · rcases dictInsert_mem h' with h'' | h''
          · refine Or.inr ⟨Or.inl ?_, ⟨e, List.mem_cons_self _ _, by omega, ?_⟩⟩
            · rw [h'']; exact List.mem_cons_self _ _
            · rw [h'']
          · exact Or.inl h''
        · refine Or.inr ⟨?_, ?_⟩
          · rcases h1 with h1 | ⟨e', he', h0, hp1⟩
            · exact Or.inl (List.mem_cons_of_mem _ h1)
            · exact Or.inr ⟨e', List.mem_cons_of_mem _ he', h0, hp1⟩
          · obtain ⟨e', he', h0, hp2⟩ := h2
            exact ⟨e', List.mem_cons_of_mem _ he', h0, hp2⟩

theorem pairingScan_le :
    ∀ (L : List Int) (stack : List Nat) (ret : List (Nat × Nat)) (s' : List Nat)
      (r' : List (Nat × Nat)),
      List.Pairwise absLe L →
      (∀ x ∈ stack, ∀ e ∈ L, x ≤ e.natAbs) →
      (∀ p ∈ ret, p.1 ≤ p.2) →
      pairingScan L stack ret = (s', r') →
      ∀ p ∈ r', p.1 ≤ p.2 := by
  intro L
  induction L with
  | nil =>
    intro stack ret s' r' _ _ hret h p hp
    simp only [pairingScan] at h
    obtain ⟨h1, h2⟩ := Prod.mk.injEq .. ▸ h
    exact hret p (h2 ▸ hp)
  | cons e rest ih =>
    intro stack ret s' r' hP hstack hret h p hp
    simp only [pairingScan] at h
    have hPrest : List.Pairwise absLe rest := (List.pairwise_cons.mp hP).2
    have hPhead : ∀ e' ∈ rest, absLe e e' := (List.pairwise_cons.mp hP).1
    by_cases he : 0 ≤ e
    · rw [if_pos he] at h
      refine ih _ _ _ _ hPrest ?_ hret h p hp
      intro x hx e' he'
      rcases List.mem_cons.mp hx with hx | hx
      · have := hPhead e' he'
        simp only [absLe] at this
        omega
      · exact hstack x hx e' (List.mem_cons_of_mem _ he')
    · rw [if_neg he] at h
      cases stack with
      | nil =>
        refine ih _ _ _ _ hPrest (by intro x hx; exact absurd hx (List.not_mem_nil _)) hret h p hp
      | cons j s =>
        refine ih _ _ _ _ hPrest ?_ ?_ h p hp
        · intro x hx e' he'
          exact hstack x (List.mem_cons_of_mem _ hx) e' (List.mem_cons_of_mem _ he')
        · intro q hq
          rcases dictInsert_mem hq with hq' | hq'
          · rw [hq']
            have := hstack j (List.mem_cons_self _ _) e (List.mem_cons_self _ _)
            simp only
            omega
          · exact hret q hq'

theorem pairingScan_values :
    ∀ (L : List Int) (stack : List Nat) (ret : List (Nat × Nat)) (s' : List Nat)
      (r' : List (Nat × Nat)),
      List.Pairwise (fun x y => x.natAbs ≤ y.natAbs ∧ x ≠ y) L →
      (∀ x ∈ stack, ∀ e ∈ L, x ≤ e.natAbs ∧ (0 ≤ e → x ≠ e.toNat)) →
      stack.Nodup →
      (∀ x ∈ stack, x ∉ ret.map Prod.fst) →
      (∀ k ∈ ret.map Prod.fst, ∀ e ∈ L, 0 ≤ e → k ≠ e.toNat) →
      List.Pairwise (· < ·) (ret.map Prod.snd) →
      (∀ v ∈ ret.map Prod.snd, ∀ e ∈ L, e < 0 → v < e.natAbs) →
      pairingScan L stack ret = (s', r') →
      List.Pairwise (· < ·) (r'.map Prod.snd) := by
  intro L
  induction L with
  | nil =>
    intro stack ret s' r' _ _ _ _ _ hsorted _ h
    simp only [pairingScan] at h
    obtain ⟨h1, h2⟩ := Prod.mk.injEq .. ▸ h
    exact h2 ▸ hsorted
  | cons e rest ih =>
    intro stack ret s' r' hP hstack hnodup hskeys hkeys hsorted hvals h
    simp only [pairingScan] at h
    have hPrest : List.Pairwise (fun x y => x.natAbs ≤ y.natAbs ∧ x ≠ y) rest :=
      (List.pairwise_cons.mp hP).2
    have hPhead : ∀ e' ∈ rest, e.natAbs ≤ e'.natAbs ∧ e ≠ e' := (List.pairwise_cons.mp hP).1
    by_cases he : 0 ≤ e
    · rw [if_pos he] at h
      refine ih _ _ _ _ hPrest ?_ ?_ ?_ ?_ hsorted ?_ h
      · intro x hx e' he'
        rcases List.mem_cons.mp hx with hx | hx
        · obtain ⟨hle, hne⟩ := hPhead e' he'
          subst hx
          constructor
          · omega
          · intro he'0 habs
            exact hne (by omega)
        · exact hstack x hx e' (List.mem_cons_of_mem _ he')
      · refine List.nodup_cons.mpr ⟨?_, hnodup⟩
        intro hmem
        exact (hstack _ hmem e (List.mem_cons_self _ _)).2 he rfl
      · intro x hx
        rcases List.mem_cons.mp hx with hx | hx
        · subst hx
          intro hmem
          exact hkeys _ hmem e (List.mem_cons_self _ _) he rfl
        · exact hskeys x hx
      · intro k hk e' he' h0
        exact hkeys k hk e' (List.mem_cons_of_mem _ he') h0
      · intro v hv e' he' h0
        exact hvals v hv e' (List.mem_cons_of_mem _ he') h0
    · rw [if_neg he] at h
      cases stack with
      | nil =>
        refine ih _ _ _ _ hPrest ?_ List.nodup_nil ?_ ?_ hsorted ?_ h
        · intro x hx
          exact absurd hx (List.not_mem_nil _)
        · intro x hx
          exact absurd hx (List.not_mem_nil _)
        · intro k hk e' he' h0
          exact hkeys k hk e' (List.mem_cons_of_mem _ he') h0
        · intro v hv e' he' h0
          exact hvals v hv e' (List.mem_cons_of_mem _ he') h0
      | cons j s =>
        have hjnot : j ∉ ret.map Prod.fst := hskeys j (List.mem_cons_self _ _)
        have hins : dictInsert j (-e).toNat ret = ret ++ [(j, (-e).toNat)] :=
          dictInsert_of_not_mem hjnot
        have h' : pairingScan rest s (dictInsert j (-e).toNat ret) = (s', r') := h
        rw [hins] at h'
        have hjs : j ∉ s := (List.nodup_cons.mp hnodup).1
        have hsnodup : s.Nodup := (List.nodup_cons.mp hnodup).2
        refine ih _ _ _ _ hPrest ?_ hsnodup ?_ ?_ ?_ ?_ h'
        · intro x hx e' he'
          exact hstack x (List.mem_cons_of_mem _ hx) e' (List.mem_cons_of_mem _ he')
        · intro x hx
          simp only [List.map_append, List.mem_append, List.map_cons, List.map_nil,
            List.mem_singleton]
          push_neg
          refine ⟨hskeys x (List.mem_cons_of_mem _ hx), ?_⟩
          intro hxj
          exact hjs (hxj ▸ hx)
        · intro k hk e' he' h0
          simp only [List.map_append, List.mem_append, List.map_cons, List.map_nil,
            List.mem_singleton] at hk
          rcases hk with hk | hk
          · exact hkeys k hk e' (List.mem_cons_of_mem _ he') h0
          · exact fun hc =>
              (hstack j (List.mem_cons_self _ _) e' (List.mem_cons_of_mem _ he')).2 h0 (hk ▸ hc)
        · rw [List.map_append]
          rw [List.pairwise_append]
          refine ⟨hsorted, by simp, ?_⟩
          intro v hv w hw
          simp only [List.map_cons, List.map_nil, List.mem_singleton] at hw
          subst hw
          have := hvals v hv e (List.mem_cons_self _ _) (by omega)
          omega
        · intro v hv e' he' h0
          simp only [List.map_append, List.mem_append, List.map_cons, List.map_nil,
            List.mem_singleton] at hv
          rcases hv with hv | hv
          · exact hvals v hv e' (List.mem_cons_of_mem _ he') h0
          · subst hv
            obtain ⟨hle, hne⟩ := hPhead e' he'
            have : e.natAbs ≠ e'.natAbs := by
              intro habs
              exact hne (by omega)
            omega

/-! ## Line-search and comment-block error lemmas -/

theorem skipNl_error_val :
    ∀ (newline : List Nat) (t fuel i : Nat) (e : PyErr),
      skipNl newline t fuel i = .error e → e = .indexError := by
  intro newline t fuel
  induction fuel with
  | zero =>
    intro i e h
    simp only [skipNl] at h
    injection h with h'
    exact h'.symm
  | succ n ih =>
    intro i e h
    simp only [skipNl] at h
    cases hg : newline.get? i with
    | none =>
      simp only [hg] at h
      injection h with h'
      exact h'.symm
    | some v =>
      simp only [hg] at h
      by_cases hv : v < t
      · rw [if_pos hv] at h
        exact ih _ _ h
      · rw [if_neg hv] at h
        exact Except.noConfusion h

theorem skipNl_all_lt (newline : List Nat) (t : Nat) (hall : ∀ v ∈ newline, v < t) :
    ∀ (fuel i : Nat), skipNl newline t fuel i = .error .indexError := by
  intro fuel
  induction fuel with
  | zero => intro i; rfl
  | succ n ih =>
    intro i
    simp only [skipNl]
    cases hg : newline.get? i with
    | none => rfl
    | some v =>
      show (if v < t then skipNl newline t n (i + 1) else Except.ok i) = Except.error .indexError
      rw [if_pos (hall v (List.get?_mem hg))]
      exact ih (i + 1)

theorem cbLoop_error (newline : List Nat) (m : List (Nat × Nat)) :
    ∀ (keys : List Nat) (i : Nat) (acc : List (Nat × Nat)),
      (∀ k ∈ keys, ∃ v, dictGet m k = some v) →
      (∃ o, o ∈ keys ∧ ∃ c, dictGet m o = some c ∧ ∀ p ∈ newline, p < c) →
      cbLoop newline m keys i acc = .error .indexError := by
  intro keys
  induction keys with
  | nil =>
    intro i acc _ hbad
    obtain ⟨o, ho, _⟩ := hbad
    exact absurd ho (List.not_mem_nil _)
  | cons oc rest ih =>
    intro i acc hkeys hbad
    obtain ⟨cl, hcl⟩ := hkeys oc (List.mem_cons_self _ _)
    obtain ⟨o, ho, c, hoc, hall⟩ := hbad
    cases h1 : skipNl newline oc (newline.length + 1) i with
    | error e =>
      have he := skipNl_error_val _ _ _ _ _ h1
      subst he
      simp only [cbLoop, h1]
    | ok i1 =>
      by_cases heq : o = oc
      · subst heq
        rw [hoc] at hcl
        have hc : cl = c := (Option.some_inj.mp hcl).symm
        subst hc
        simp only [cbLoop, h1, hoc, skipNl_all_lt newline cl hall]
      · have ho' : o ∈ rest := by
          rcases List.mem_cons.mp ho with h | h
          · exact absurd h heq
          · exact h
        cases h2 : skipNl newline cl (newline.length + 1) i1 with
        | error e =>
          have he := skipNl_error_val _ _ _ _ _ h2
          subst he
          simp only [cbLoop, h1, hcl, h2]
        | ok i2 =>
          have hrec := ih (i2 + 1) (dictInsert i1 (i2 + 1) acc)
            (fun k hk => hkeys k (List.mem_cons_of_mem _ hk)) ⟨o, ho', c, hoc, hall⟩
          simp only [cbLoop, h1, hcl, h2, hrec]

/-! ## Event-list lemmas -/

theorem sortEvents_cases {a b : List Nat} {e : Int} (he : e ∈ sortEvents a b) :
    (∃ n : Nat, n ∈ a ∧ e = (n : Int)) ∨ (∃ n : Nat, n ∈ b ∧ e = -(n : Int)) := by
  have he' : e ∈ a.map (fun n : Nat => (n : Int)) ++ b.map (fun n : Nat => -(n : Int)) := by
    simpa [sortEvents] using he
  rcases List.mem_append.mp he' with h | h
  · obtain ⟨n, hn, hne⟩ := List.mem_map.mp h
    exact Or.inl ⟨n, hn, hne.symm⟩
  · obtain ⟨n, hn, hne⟩ := List.mem_map.mp h
    exact Or.inr ⟨n, hn, hne.symm⟩

theorem sortEvents_pairwise (a b : List Nat)
    (ha : List.Pairwise (· < ·) a) (hb : List.Pairwise (· < ·) b)
    (h0 : ¬(0 ∈ a ∧ 0 ∈ b)) :
    List.Pairwise (fun x y => x.natAbs ≤ y.natAbs ∧ x ≠ y) (sortEvents a b) := by
  have hsorted : List.Pairwise (fun x y : Int => x.natAbs ≤ y.natAbs) (sortEvents a b) :=
    List.sorted_insertionSort absLe (a.map (fun n : Nat => (n : Int)) ++ b.map (fun n : Nat => -(n : Int)))
  have hna : (a.map (fun n : Nat => (n : Int))).Nodup := by
    refine List.Nodup.map ?_ ?_
    · intro x y hxy
      have hxy' : (x : Int) = (y : Int) := hxy
      omega
    · exact List.Pairwise.imp (fun h => Nat.ne_of_lt h) ha
  have hnb : (b.map (fun n : Nat => -(n : Int))).Nodup := by
    refine List.Nodup.map ?_ ?_
    · intro x y hxy
      have hxy' : -(x : Int) = -(y : Int) := hxy
      omega
    · exact List.Pairwise.imp (fun h => Nat.ne_of_lt h) hb
  have hdisj : List.Disjoint (a.map (fun n : Nat => (n : Int))) (b.map (fun n : Nat => -(n : Int))) := by
    intro x hx1 hx2
    obtain ⟨m, hm, hme⟩ := List.mem_map.mp hx1
    obtain ⟨n, hn, hne⟩ := List.mem_map.mp hx2
    have hme' : (m : Int) = x := hme
    have hne' : -(n : Int) = x := hne
    have hm0 : m = 0 := by omega
    have hn0 : n = 0 := by omega
    exact h0 ⟨hm0 ▸ hm, hn0 ▸ hn⟩
  have hnodup : (sortEvents a b).Nodup := by
    refine (List.Perm.nodup_iff ?_).mpr (List.nodup_append.mpr ⟨hna, hnb, hdisj⟩)
    exact List.perm_insertionSort absLe _
  exact List.Pairwise.and hsorted hnodup

theorem find_matching_ok (a b : List Nat) (ret : List (Nat × Nat))
    (h : find_matching a b = .ok ret) :
    ret = [] ∨ pairingScan (sortEvents a b) [] [] = ([], ret) := by
  unfold find_matching at h
  by_cases hab : (a.isEmpty && b.isEmpty) = true
  · rw [if_pos hab] at h
    injection h with h'
    exact Or.inl h'.symm
  · rw [if_neg hab] at h
    rcases hscan : pairingScan (sortEvents a b) [] [] with ⟨s, r⟩
    cases s with
    | nil =>
      simp only [hscan] at h
      injection h with h'
      right
      rw [h']
    | cons j s' =>
      exfalso
      simp only [hscan] at h
      exact Except.noConfusion h

/-! ## Claim theorems -/

/-- C1: the reserialization contract fails on adjacent blocks.  Building the
model on two line-adjacent comment blocks succeeds, but reserialization
inserts an extra newline around the empty plain separator (the join adds a
line break for the empty segment), so `str` does not reproduce the text. -/
theorem docstrings_roundtrip_adjacent_blocks :
    Except.map Docstrings.str (docstringsInit ("/**\n*/\n/**\n*/\n".toList)) =
      .ok ("/**\n*/\n\n/**\n*/\n".toList) ∧
    ("/**\n*/\n\n/**\n*/\n".toList) ≠ ("/**\n*/\n/**\n*/\n".toList) :=
  ⟨by rfl, by decide⟩

/-- C2: if the pairing scan leaves at least one offset on the stack,
`find_matching` raises the mismatched-delimiter error reporting the most
recently pushed unmatched offset, and `Docstrings` construction aborts
with the same error (no partial model). -/
theorem find_matching_unmatched_opener_fatal :
    (∀ (a b : List Nat) (j : Nat) (s : List Nat) (r : List (Nat × Nat)),
        pairingScan (sortEvents a b) [] [] = (j :: s, r) →
        find_matching a b = .error (.noOpening j)) ∧
      (∀ (text : List Char) (e : PyErr),
        findMatchingDoc text = .error e → docstringsInit text = .error e) := by
  constructor
  · intro a b j s r h
    unfold find_matching
    by_cases hab : (a.isEmpty && b.isEmpty) = true
    · exfalso
      rw [Bool.and_eq_true, List.isEmpty_iff, List.isEmpty_iff] at hab
      obtain ⟨ha, hb⟩ := hab
      subst ha
      subst hb
      have h' : (([] : List Nat), ([] : List (Nat × Nat))) = (j :: s, r) := h
      simp at h'
    · rw [if_neg hab, h]
  · intro text e h
    unfold docstringsInit comment_blocks
    rw [h]

/-- C2 witness: `/**` with no closer leaves offset 0 on the stack; both the
matcher and the whole construction raise the mismatched-delimiter error. -/
theorem find_matching_unmatched_opener_fatal_witness :
    find_matching [0] [] = .error (.noOpening 0) ∧
      docstringsInit ("/**\nx".toList) = .error (.noOpening 0) :=
  ⟨find_matching_unmatched_opener_fatal.1 [0] [] 0 [] [] (by rfl),
    find_matching_unmatched_opener_fatal.2 ("/**\nx".toList) (.noOpening 0) (by rfl)⟩

/-- C3: a dangling closer at buffer offset 0 is NOT silently ignored: since
`-1 * 0 == 0`, the negated closer offset is misread as an opener, stays on
the stack, and `find_matching` raises, aborting construction, even though
the rest of the text contains a well-formed block ({1: 7} when the closer
is removed). -/
theorem find_matching_dangling_closer_at_zero :
    findMatchingDoc ("*/\n/**\nx\n*/\n".toList) = .error (.noOpening 0) ∧
      findMatchingDoc ("\n/**\nx\n*/\n".toList) = .ok [(1, 7)] ∧
      docstringsInit ("*/\n/**\nx\n*/\n".toList) = .error (.noOpening 0) :=
  ⟨by rfl, by rfl, by rfl⟩

/-- C4 counterexample: a delimiter preceded by TWO escape characters is
still excluded (the lookbehind checks only the immediately preceding
character), so the claimed mapping `{2: 3}` is not produced. -/
theorem find_matching_double_escape_cex :
    findMatchingLit ['('] [')'] true ("\\\\()".toList) = .ok [] ∧
      litStarts true ['('] ("\\\\()".toList) = [] ∧
      ¬ findMatchingLit ['('] [')'] true ("\\\\()".toList) = .ok [(2, 3)] :=
  ⟨by rfl, by rfl, by decide⟩

/-- C4 (amended): with `ignore_escaped` enabled, an occurrence immediately
preceded by an escape character is excluded from the occurrence set no
matter how many escape characters precede it, and an occurrence at buffer
position 0 is never considered escaped. -/
theorem find_matching_escape_exclusion :
    (∀ (pat text : List Char) (p : Nat), p ∈ litStarts true pat text →
        escapedAt text p = false) ∧
      (∀ (pat text : List Char), pat ≠ [] → pat.isPrefixOf text = true →
        0 ∈ litStarts true pat text) :=
  ⟨fun pat text p hp => scanLit_not_escaped pat text (text.length + 1) 0 p hp,
    fun pat text h1 h2 => scanLit_head pat text h1 h2⟩

/-- C4 witness: an unescaped occurrence is reported and is not escaped; an
occurrence at position 0 is always in the occurrence set. -/
theorem find_matching_escape_exclusion_witness :
    escapedAt ("()".toList) 0 = false ∧ 0 ∈ litStarts true ['('] ("(x".toList) :=
  ⟨find_matching_escape_exclusion.1 ['('] ("()".toList) 0 (by decide),
    find_matching_escape_exclusion.2 ['('] ("(x".toList) (by decide) (by rfl)⟩

/-- C5 counterexample: on nested pairs the mapping is produced in closing
order, not ascending opening order, and the two recorded ranges are nested
(hence overlap); with patterns that can match at the same offset a key can
equal its value. -/
theorem find_matching_mapping_order_cex :
    findMatchingLit ['('] [')'] true ("(())".toList) = .ok [(1, 2), (0, 3)] ∧
      ¬ List.Pairwise (· < ·) (([(1, 2), (0, 3)] : List (Nat × Nat)).map Prod.fst) ∧
      ¬ (∀ p ∈ ([(1, 2), (0, 3)] : List (Nat × Nat)),
          ∀ q ∈ ([(1, 2), (0, 3)] : List (Nat × Nat)), p ≠ q → p.2 < q.1 ∨ q.2 < p.1) ∧
      findMatchingLit ['a', 'b'] ['a'] true ("xab".toList) = .ok [(1, 1)] :=
  ⟨by rfl, by decide, by decide, by rfl⟩

/-- C5 (amended): when `find_matching` succeeds on occurrence lists that a
regex scan can produce (strictly ascending, no offset that is both an
opener and a closer at 0), every key is at most its value (equality is
possible when an opening and a closing occurrence share an offset), and
iteration yields entries in ascending order of CLOSING offset; ranges may
be nested. -/
theorem find_matching_mapping_invariant (a b : List Nat) (ret : List (Nat × Nat))
    (ha : List.Pairwise (· < ·) a) (hb : List.Pairwise (· < ·) b)
    (h0 : ¬(0 ∈ a ∧ 0 ∈ b)) (h : find_matching a b = .ok ret) :
    (∀ p ∈ ret, p.1 ≤ p.2) ∧ List.Pairwise (· < ·) (ret.map Prod.snd) := by
  rcases find_matching_ok a b ret h with hnil | hscan
  · subst hnil
    exact ⟨fun p hp => absurd hp (List.not_mem_nil _), by simp⟩
  · have hQ := sortEvents_pairwise a b ha hb h0
    have habs : List.Pairwise absLe (sortEvents a b) := List.Pairwise.imp (fun h => h.1) hQ
    refine ⟨?_, ?_⟩
    · exact pairingScan_le _ [] [] _ _ habs
        (fun x hx => absurd hx (List.not_mem_nil _))
        (fun p hp => absurd hp (List.not_mem_nil _)) hscan
    · exact pairingScan_values _ [] [] _ _ hQ
        (fun x hx => absurd hx (List.not_mem_nil _))
        List.nodup_nil
        (fun x hx => absurd hx (List.not_mem_nil _))
        (fun k hk => absurd hk (by simp))
        (by simp)
        (fun v hv => absurd hv (by simp))
        hscan

/-- C5 witness: the nested example satisfies the amended invariant. -/
theorem find_matching_mapping_invariant_witness :
    (∀ p ∈ ([(1, 2), (0, 3)] : List (Nat × Nat)), p.1 ≤ p.2) ∧
      List.Pairwise (· < ·) (([(1, 2), (0, 3)] : List (Nat × Nat)).map Prod.snd) :=
  find_matching_mapping_invariant [0, 1] [2, 3] [(1, 2), (0, 3)]
    (by decide) (by decide) (by decide) (by rfl)

/-- C6 counterexample: the matched pair for `/**\n ... */` maps the opening
start 0 to 4, the START offset of the closing occurrence (which spans
offsets 4-5), not to its end offset 6 as the claim states. -/
theorem find_matching_closing_end_cex :
    findMatchingDoc ("/**\n*/\n".toList) = .ok [(0, 4)] ∧
      docCloseStarts ("/**\n*/\n".toList) = [4] ∧
      ¬ findMatchingDoc ("/**\n*/\n".toList) = .ok [(0, 6)] :=
  ⟨by rfl, by rfl, by decide⟩

/-- C6 (amended): every recorded value is the START offset of a closing
occurrence (every key is an opening start, or 0 when a closer at offset 0
is misread); pairing is LIFO, as the concrete nested example shows: the
inner opener 4 takes the first closer 8, the outer opener 0 takes 11. -/
theorem find_matching_offsets_lifo :
    (∀ (a b : List Nat) (ret : List (Nat × Nat)), find_matching a b = .ok ret →
        ∀ p ∈ ret, (p.1 ∈ a ∨ (p.1 = 0 ∧ 0 ∈ b)) ∧ p.2 ∈ b) ∧
      find_matching [0, 4] [8, 11] = .ok [(4, 8), (0, 11)] := by
  constructor
  · intro a b ret h p hp
    rcases find_matching_ok a b ret h with hnil | hscan
    · subst hnil
      exact absurd hp (List.not_mem_nil _)
    · rcases pairingScan_origin _ _ _ _ _ hscan p hp with h' | ⟨h1, h2⟩
      · exact absurd h' (List.not_mem_nil _)
      · constructor
        · rcases h1 with h1 | ⟨e, he, h0, hp1⟩
          · exact absurd h1 (List.not_mem_nil _)
          · rcases sortEvents_cases he with ⟨n, hn, rfl⟩ | ⟨n, hn, rfl⟩
            · left
              have hpn : p.1 = n := by omega
              exact hpn ▸ hn
            · right
              have hn0 : n = 0 := by omega
              have hp0 : p.1 = 0 := by omega
              exact ⟨hp0, hn0 ▸ hn⟩
        · obtain ⟨e, he, h0, hp2⟩ := h2
          rcases sortEvents_cases he with ⟨n, hn, rfl⟩ | ⟨n, hn, rfl⟩
          · exact absurd h0 (by omega)
          · have hpn : p.2 = n := by omega
            exact hpn ▸ hn
  · rfl

/-- C6 witness: the recorded pair (4, 8) has its key among the opening
starts and its value among the closing starts. -/
theorem find_matching_offsets_lifo_witness :
    ((4 : Nat) ∈ [0, 4] ∨ ((4 : Nat) = 0 ∧ (0 : Nat) ∈ [8, 11])) ∧ (8 : Nat) ∈ [8, 11] :=
  find_matching_offsets_lifo.1 [0, 4] [8, 11] [(4, 8), (0, 11)] (by rfl) (4, 8) (by decide)

/-- C7: reserialization is not idempotent.  On overlapping pairs the block
line ranges touch, each pass reserializes with one more blank line than
the previous one, so the second round trip differs from the first. -/
theorem docstrings_reserialize_not_idempotent :
    Except.map Docstrings.str (docstringsInit ("/**\n/**\n*/\n*/\nX\nY\n".toList)) =
      .ok ("/**\n/**\n*/\n*/\n\nX\nY\n".toList) ∧
    Except.map Docstrings.str (docstringsInit ("/**\n/**\n*/\n*/\n\nX\nY\n".toList)) =
      .ok ("/**\n/**\n*/\n*/\n\n\nX\nY\n".toList) ∧
    ("/**\n/**\n*/\n*/\n\n\nX\nY\n".toList) ≠ ("/**\n/**\n*/\n*/\n\nX\nY\n".toList) :=
  ⟨by rfl, by rfl, by decide⟩

/-- C8: replacing the block at a valid iteration index stores the new
string verbatim at that block's segment position and changes nothing
else: segment count, comment tags, the index map, and every other
segment are unchanged. -/
theorem docstrings_replace_frame (d : Docstrings) (i j : Nat) (v : List Char)
    (hij : dictGet d.index i = some j) (hj : j < d.blocks.length) :
    ∃ d', d.setItem i v = .ok d' ∧
      d'.blocks.length = d.blocks.length ∧
      d'.comment = d.comment ∧
      d'.index = d.index ∧
      d'.blocks[j]? = some v ∧
      ∀ k, k ≠ j → d'.blocks[k]? = d.blocks[k]? := by
  refine ⟨⟨d.blocks.set j v, d.comment, d.index⟩, ?_, ?_, rfl, rfl, ?_, ?_⟩
  · simp only [Docstrings.setItem, hij]
    rw [if_pos hj]
  · simp
  · exact List.getElem?_set_eq_of_lt v hj
  · intro k hk
    exact List.getElem?_set_ne (Ne.symm hk)

/-- C8 witness: replacing the single block of a three-segment model. -/
theorem docstrings_replace_frame_witness :
    ∃ d', Docstrings.setItem ⟨[[], [], []], [false, true, false], [(0, 1)]⟩ 0 ['Z'] = .ok d' ∧
      d'.blocks.length = (⟨[[], [], []], [false, true, false], [(0, 1)]⟩ : Docstrings).blocks.length ∧
      d'.comment = (⟨[[], [], []], [false, true, false], [(0, 1)]⟩ : Docstrings).comment ∧
      d'.index = (⟨[[], [], []], [false, true, false], [(0, 1)]⟩ : Docstrings).index ∧
      d'.blocks[1]? = some ['Z'] ∧
      ∀ k, k ≠ 1 →
        d'.blocks[k]? = (⟨[[], [], []], [false, true, false], [(0, 1)]⟩ : Docstrings).blocks[k]? :=
  docstrings_replace_frame ⟨[[], [], []], [false, true, false], [(0, 1)]⟩ 0 1 ['Z']
    (by rfl) (by decide)

/-- C9: construction is not total on mismatch-free inputs: if the matcher
succeeds and some matched pair's closing offset lies beyond every newline
of the text (the block's closer is not followed by any line break), the
line-boundary expansion walks its newline list past the end and
construction raises the out-of-bounds IndexError. -/
theorem docstrings_missing_final_newline_index_error (text : List Char)
    (M : List (Nat × Nat)) (o c : Nat)
    (hM : findMatchingDoc text = .ok M) (hoc : dictGet M o = some c)
    (hnl : ∀ p ∈ nlPositions text, p < c) :
    docstringsInit text = .error .indexError := by
  have hcb : comment_blocks text = .error .indexError := by
    unfold comment_blocks
    rw [hM]
    show cbLoop (nlPositions text) M (sortedKeys M) 0 [] = Except.error PyErr.indexError
    refine cbLoop_error _ _ _ _ _ ?_ ?_
    · intro k hk
      refine keys_dictGet ?_
      simpa [sortedKeys] using hk
    · refine ⟨o, ?_, c, hoc, hnl⟩
      have homem : o ∈ M.map Prod.fst := dictGet_mem_keys hoc
      simpa [sortedKeys] using homem
  unfold docstringsInit
  rw [hcb]

/-- C9 witness: `/**\nx\n*/` (no newline after the closer) raises the
out-of-bounds error. -/
theorem docstrings_missing_final_newline_index_error_witness :
    docstringsInit ("/**\nx\n*/".toList) = .error .indexError :=
  docstrings_missing_final_newline_index_error ("/**\nx\n*/".toList) [(0, 6)] 0 6
    (by rfl) (by rfl) (by decide)

/-- C10: with the default configuration an opening occurrence requires the
`/**` token to be followed (up to a newline) only by whitespace, i.e. the
token is the last non-whitespace content on its line; consequently the
one-line comment `/** a */` is never recognized and the whole text stays
one plain segment. -/
theorem docstrings_opening_requires_line_end :
    (∀ (text : List Char) (p : Nat), p ∈ docOpenStarts text →
      ∃ q, p + 3 ≤ q ∧ text.get? q = some '\n' ∧
        ∀ r, p + 3 ≤ r → r < q → ∃ ch, text.get? r = some ch ∧ pySpace ch = true) ∧
      docstringsInit ("x\n/** a */\ny\n".toList) =
        .ok ⟨["x\n/** a */\ny\n".toList], [false], []⟩ := by
  constructor
  · intro text p hp
    obtain ⟨e, he⟩ := scanDocOpen_mem text (text.length + 1) 0 p hp
    unfold matchDocOpen at he
    by_cases hpre : ['/', '*', '*'].isPrefixOf (text.drop p) = true
    · rw [if_pos hpre] at he
      cases hnl : lastNlIdx (text.drop (p + 3)) (wsRunLen (text.drop (p + 3))) with
      | none =>
        rw [hnl] at he
        exact Option.noConfusion he
      | some i =>
        obtain ⟨hi_lt, hi_nl⟩ := lastNlIdx_spec _ _ _ hnl
        refine ⟨p + 3 + i, by omega, ?_, ?_⟩
        · rw [← get?_drop_add]
          exact hi_nl
        · intro r hr1 hr2
          obtain ⟨ch, hch, hsp⟩ := wsRunLen_spec (text.drop (p + 3)) (r - (p + 3)) (by omega)
          refine ⟨ch, ?_, hsp⟩
          rw [get?_drop_add] at hch
          have hr : p + 3 + (r - (p + 3)) = r := by omega
          rw [hr] at hch
          exact hch
    · rw [if_neg hpre] at he
      exact Option.noConfusion he
  · rfl

/-- C10 witness: position 0 of `/** \nz` is a recognized opening: the
newline at offset 4 follows only whitespace after the token. -/
theorem docstrings_opening_requires_line_end_witness :
    ∃ q, 0 + 3 ≤ q ∧ ("/** \nz".toList).get? q = some '\n' ∧
      ∀ r, 0 + 3 ≤ r → r < q → ∃ ch, ("/** \nz".toList).get? r = some ch ∧ pySpace ch = true :=
  docstrings_opening_requires_line_end.1 ("/** \nz".toList) 0 (by decide)
